import Mathlib

/-!
# A verification of the flashcards program

Shallow embedding of `src/flashcards.py` (an interactive command-line
flashcard trainer) and proofs about it.

Modelling conventions:

* Python `Card` objects become the structure `Card`; mutation of a card's
  `mistakes` field becomes functional update.
* A Python `Deck` wraps a list of cards; its methods become functions
  `Deck → ...`.
* Python functions that return `None` on some paths (`has_term`, `has_def`,
  `get_term`) are modelled with `Option`; `None` is falsy in a Python `if`,
  captured by `truthy`.
* User input is modelled as explicit arguments (the answer stream of a
  practice session is a function from the running question count to the
  string typed).
* File contents are modelled as `String`s; Python's `str.split`,
  `str.strip`, `readlines` and decimal `int()` parsing / formatting are
  embedded as executable functions over `List Char` below, mirroring the
  CPython semantics actually exercised by the program (single-character
  separators, ASCII whitespace, unsigned decimal numerals; exotic `int()`
  inputs such as a leading `+` or underscores never arise from data this
  program writes).
* The unbounded `while` loop of `card_practice` is run on explicit fuel:
  `none` means the loop did not finish within the given fuel, and a result
  that is `none` for every fuel is a genuine infinite loop.
-/

/-- A flashcard: `Card.__init__` stores `term`, `definition` and a
`mistakes` counter (default 0). -/
structure Card where
  term : String
  definition : String
  mistakes : Nat
deriving DecidableEq

/-- `Card.add_mistake`: increments `mistakes` by 1. -/
def Card.add_mistake (c : Card) : Card :=
  { c with mistakes := c.mistakes + 1 }

/-- `Card.reset`: sets `mistakes` to 0. -/
def Card.reset (c : Card) : Card :=
  { c with mistakes := 0 }

/-- A deck is a list of cards (`Deck.__init__` creates an empty list). -/
structure Deck where
  cards : List Card
deriving DecidableEq

/-- Truthiness of an optional boolean, as used by Python `if` on the result
of `has_term` / `has_def`: `None` is falsy. -/
def truthy : Option Bool → Bool
  | none => false
  | some b => b

/-- `Deck.has_term`: the Python loop body ends in an unconditional
`return term == card.term`, so only the first card is ever inspected;
on an empty deck the loop body never runs and the function returns `None`. -/
def Deck.has_term (d : Deck) (term : String) : Option Bool :=
  match d.cards with
  | [] => none
  | card :: _ => some (term == card.term)

/-- `Deck.has_def`: same first-iteration `return` as `has_term`. -/
def Deck.has_def (d : Deck) (definition : String) : Option Bool :=
  match d.cards with
  | [] => none
  | card :: _ => some (definition == card.definition)

/-- `Deck.add_card`: appends to the end of the list. -/
def Deck.add_card (d : Deck) (card : Card) : Deck :=
  { d with cards := d.cards ++ [card] }

/-- The loop of `Deck.remove_card`: Python iterates over `self.cards`
while calling `self.cards.remove(card)` on it.  Card objects are distinct
and compared by identity, so `remove` deletes the element at the
iterator's current index; the list then shifts left and the iterator's
next step lands two (original) positions further, skipping the element
that followed a removed one.  That element is kept without being
examined. -/
def removeCardAux (term : String) : List Card → List Card
  | [] => []
  | c :: rest =>
    if c.term == term then
      match rest with
      | [] => []
      | d :: rest' => d :: removeCardAux term rest'
    else
      c :: removeCardAux term rest

/-- `Deck.remove_card` (the printed confirmation message is ignored). -/
def Deck.remove_card (d : Deck) (term : String) : Deck :=
  { d with cards := removeCardAux term d.cards }

/-- `Deck.size`: `len(self.cards)`. -/
def Deck.size (d : Deck) : Nat :=
  d.cards.length

/-- `Deck.definitions`: the definitions of all cards, in deck order. -/
def Deck.definitions (d : Deck) : List String :=
  d.cards.map (fun x => x.definition)

/-- The loop of `Deck.get_term`: returns the term of the first card whose
definition matches, `None` when the loop falls through. -/
def getTermAux (definition : String) : List Card → Option String
  | [] => none
  | c :: rest =>
    if c.definition == definition then some c.term else getTermAux definition rest

/-- `Deck.get_term`. -/
def Deck.get_term (d : Deck) (definition : String) : Option String :=
  getTermAux definition d.cards

/-- `Deck.most_mistakes`: `max` over the mistake counts; Python's `max`
raises `ValueError` on an empty sequence, modelled as `none`. -/
def Deck.most_mistakes (d : Deck) : Option Nat :=
  (d.cards.map (fun x => x.mistakes)).max?

/-- `Deck.hardest_card`: the comprehension keeps the cards whose mistake
count equals `most_mistakes()` (the comprehension's condition, hence
`most_mistakes`, is only evaluated when there is at least one card), then
a `filter` drops the cards with zero mistakes. -/
def Deck.hardest_card (d : Deck) : List Card :=
  (d.cards.filter (fun x => some x.mistakes == d.most_mistakes)).filter
    (fun x => x.mistakes != 0)

/-- `Deck.clear`: empties the list. -/
def Deck.clear (d : Deck) : Deck :=
  { d with cards := [] }

/-- The deck invariant of the data model: no two cards share a term and no
two cards share a definition.  `distinctFrom c cards` says `c` clashes with
no card of `cards`. -/
def distinctFrom (c : Card) (cards : List Card) : Bool :=
  cards.all (fun d => c.term != d.term && c.definition != d.definition)

/-- Decidable pairwise form of the deck invariant. -/
def deckInv : List Card → Bool
  | [] => true
  | c :: rest => distinctFrom c rest && deckInv rest

/-- The `add` flow: after `get_term`/`get_def` have accepted a term and a
definition (i.e. the `has_term`/`has_def` checks were falsy), a fresh card
with 0 mistakes is appended to the deck. -/
def add (d : Deck) (term definition : String) : Deck :=
  d.add_card (Card.mk term definition 0)

/-- `reset stats` (top-level `reset`): calls `card.reset()` on every card
of the deck, in place. -/
def reset (d : Deck) : Deck :=
  { d with cards := d.cards.map Card.reset }

/-! ## Decimal numerals, `split`, `strip`, `readlines`

Character-level embeddings of the Python string operations used by
import/export. -/

/-- The decimal digit character of `d` (for `d < 10`). -/
def decDigitChar (d : Nat) : Char :=
  Char.ofNat (48 + d)

/-- Decimal rendering of a natural, as produced by the f-string
`f'{card.mistakes}'`. -/
def natRepr (n : Nat) : String :=
  if n = 0 then "0" else String.mk (((Nat.digits 10 n).map decDigitChar).reverse)

/-- The numeric value of an ASCII decimal digit character, `none` for any
other character. -/
def charDigit? (c : Char) : Option Nat :=
  if 48 ≤ c.toNat ∧ c.toNat ≤ 57 then some (c.toNat - 48) else none

/-- Left fold of decimal digits, failing on the first non-digit. -/
def parseNatAux (acc : Nat) : List Char → Option Nat
  | [] => some acc
  | c :: rest =>
    match charDigit? c with
    | some d => parseNatAux (acc * 10 + d) rest
    | none => none

/-- Python `int(s)` on the unsigned decimal strings this program produces:
a non-empty all-digit string parses to its value, anything else raises
(`none`). -/
def parseNat (s : String) : Option Nat :=
  match s.data with
  | [] => none
  | cs => parseNatAux 0 cs

/-- ASCII whitespace, as removed by Python `str.strip()`. -/
def isSpace (c : Char) : Bool :=
  c == ' ' || c == '\t' || c == '\n' || c == '\x0d' || c == '\x0b' || c == '\x0c'

/-- `str.strip()` on the character list: drop whitespace from both ends. -/
def stripChars (cs : List Char) : List Char :=
  ((cs.dropWhile isSpace).reverse.dropWhile isSpace).reverse

/-- Python `str.strip()`. -/
def pyStrip (s : String) : String :=
  String.mk (stripChars s.data)

/-- Python `str.split(sep)` for a one-character separator: accumulate the
current field (reversed) and cut at each separator.  `"".split(sep)` is
`[""]`. -/
def splitOnCharAux (sep : Char) : List Char → List Char → List (List Char)
  | [], acc => [acc.reverse]
  | c :: rest, acc =>
    if c == sep then acc.reverse :: splitOnCharAux sep rest []
    else splitOnCharAux sep rest (c :: acc)

/-- Python `line.split(":")` (single-character separator). -/
def pySplit (s : String) (sep : Char) : List String :=
  (splitOnCharAux sep s.data []).map String.mk

/-- Python `f.readlines()` on file contents: cut after each newline,
keeping the newline; a final chunk without a newline is kept too, and an
empty file yields no lines. -/
def readlinesAux : List Char → List Char → List (List Char)
  | [], acc => if acc.isEmpty then [] else [acc.reverse]
  | c :: rest, acc =>
    if c == '\n' then (acc.reverse ++ ['\n']) :: readlinesAux rest []
    else readlinesAux rest (c :: acc)

/-- `f_in.readlines()` of a file's contents. -/
def readlines (s : String) : List String :=
  (readlinesAux s.data []).map String.mk

/-! ## Import / export -/

/-- The line `export_file` writes for one card:
`f'{card.term}:{card.definition}:{card.mistakes}\n'`. -/
def cardLine (c : Card) : String :=
  c.term ++ ":" ++ c.definition ++ ":" ++ natRepr c.mistakes ++ "\n"

/-- The characters of `cardLine c`, in the flat shape used by the
round-trip proofs. -/
def lineChars (c : Card) : List Char :=
  c.term.data ++ (':' :: (c.definition.data ++ (':' :: ((natRepr c.mistakes).data ++ ['\n']))))

/-- `export_file`: writes one line per card (sequential `f_out.write`
calls, modelled as a fold), then prints `deck.size()` as the saved-card
count, then `deck.clear()`.  Returns (file contents, reported count,
deck afterwards). -/
def export_file (d : Deck) : String × Nat × Deck :=
  let content := d.cards.foldl (fun acc c => acc ++ cardLine c) ""
  let reported := d.size
  (content, reported, d.clear)

/-- One line of `import_file`'s loop: `card = line.split(":")`, then
`Card(card[0], card[1], int(card[2].strip()))`.  Fewer than three fields
raise `IndexError`, a non-numeric third field raises `ValueError`; both
are uncaught and abort the program (`none`).  Extra fields are ignored. -/
def parseLine (line : String) : Option Card :=
  match pySplit line ':' with
  | t :: dfn :: m :: _ => (parseNat (pyStrip m)).map (fun k => Card.mk t dfn k)
  | _ => none

/-- The loop of `import_file`: append one card per line; a line that fails
to parse aborts the program (the partially extended deck is never
observable afterwards). -/
def importLines (cards : List Card) : List String → Option (List Card)
  | [] => some cards
  | line :: rest =>
    match parseLine line with
    | some c => importLines (cards ++ [c]) rest
    | none => none

/-- `import_file` on an existing file with the given contents (the
`FileNotFoundError` branch, which leaves the deck unchanged, is outside
this model). -/
def import_file (d : Deck) (contents : String) : Option Deck :=
  (importLines d.cards (readlines contents)).map Deck.mk

/-! ## Practice session -/

/-- Per-question feedback printed by `card_practice`. -/
inductive Feedback where
  | correct : Feedback
  | swappedWrong (rightAnswer : String) (otherTerm : Option String) : Feedback
  | plainWrong (rightAnswer : String) : Feedback
deriving DecidableEq

/-- One question of `card_practice` on the card at index `j` (the live
object `card = deck.cards[j]`): an exact match mutates nothing; otherwise
the card's mistake counter is bumped, and when the answer is some card's
definition the feedback names `deck.get_term(answer)`. -/
def practiceStep (d : Deck) (card : Card) (j : Nat) (answer : String) :
    Deck × Feedback :=
  if answer == card.definition then
    (d, Feedback.correct)
  else if d.definitions.contains answer then
    ({ d with cards := d.cards.set j card.add_mistake },
      Feedback.swappedWrong card.definition (d.get_term answer))
  else
    ({ d with cards := d.cards.set j card.add_mistake },
      Feedback.plainWrong card.definition)

/-- State after part of a practice session: the deck, the running question
count, and (as a ghost trace) the terms that were asked, in order. -/
structure PracticeState where
  deck : Deck
  count : Nat
  asked : List String
deriving DecidableEq

/-- The inner `for card in deck.cards` loop of `card_practice`, iterating
over the remaining positions of the pass (`deck.cards` never changes
length during a session, only mistake counters move).  `if count == times:
break` guards every question.  The `none` branch of the card lookup is
unreachable: every index handed to the loop is below the deck's size. -/
def runPass (times : Nat) (answers : Nat → String) :
    List Nat → Deck → Nat → PracticeState
  | [], d, count => ⟨d, count, []⟩
  | j :: rest, d, count =>
    if count = times then ⟨d, count, []⟩
    else
      match d.cards[j]? with
      | none => ⟨d, count, []⟩
      | some card =>
        let s := runPass times answers rest (practiceStep d card j (answers count)).1
          (count + 1)
        ⟨s.deck, s.count, card.term :: s.asked⟩

/-- The outer `while count < times` loop of `card_practice`, with explicit
fuel bounding the number of `while` iterations; `none` means the loop did
not finish within the fuel. -/
def practiceLoop (times : Nat) (answers : Nat → String) :
    Nat → Deck → Nat → List String → Option (Deck × List String)
  | 0, _, _, _ => none
  | fuel + 1, d, count, asked =>
    if count < times then
      let s := runPass times answers (List.range d.size) d count
      practiceLoop times answers fuel s.deck s.count (asked ++ s.asked)
    else
      some (d, asked)

/-- `card_practice(deck, times)` with the user's answers supplied as a
stream indexed by the running question count. -/
def card_practice (fuel : Nat) (d : Deck) (times : Nat)
    (answers : Nat → String) : Option (Deck × List String) :=
  practiceLoop times answers fuel d 0 []

/-! ## Auxiliary predicates used to state the claims -/

/-- No two adjacent cards both carry the given term (holds in particular
whenever terms are unique, as the deck invariant demands). -/
def noAdjMatch (t : String) : List Card → Bool
  | [] => true
  | [_] => true
  | a :: b :: rest => !(a.term == t && b.term == t) && noAdjMatch t (b :: rest)

/-- A card whose term and definition contain neither the field separator
`:` nor a newline, so that its exported line parses back unambiguously. -/
def cleanCard (c : Card) : Prop :=
  ':' ∉ c.term.data ∧ '\n' ∉ c.term.data ∧
    ':' ∉ c.definition.data ∧ '\n' ∉ c.definition.data

instance (c : Card) : Decidable (cleanCard c) := by
  unfold cleanCard; infer_instance

/-! ## Helper lemmas -/

/-- Setting an index to the value it already holds leaves a list unchanged. -/
theorem list_set_self {α : Type} : ∀ (l : List α) (n : Nat) (a : α),
    l[n]? = some a → l.set n a = l
  | [], _, _, h => by cases h
  | x :: xs, 0, a, h => by
    simp only [List.getElem?_cons_zero, Option.some.injEq] at h
    simp [h]
  | x :: xs, n + 1, a, h => by
    simp only [List.getElem?_cons_succ] at h
    simp [list_set_self xs n a h]

/-- `get_term` returns the term of the first card whose definition matches. -/
theorem getTermAux_eq_find (dfn : String) : ∀ (cards : List Card),
    getTermAux dfn cards
      = (cards.find? (fun c => c.definition == dfn)).map (fun c => c.term)
  | [] => rfl
  | c :: rest => by
    by_cases h : c.definition = dfn
    · simp [getTermAux, List.find?, h]
    · have hb : (c.definition == dfn) = false := beq_eq_false_iff_ne.mpr h
      simp [getTermAux, List.find?, hb, getTermAux_eq_find dfn rest]

/-- The two complementary filters of a list account for its whole length. -/
theorem length_filter_not_add (p : Card → Bool) : ∀ (l : List Card),
    (l.filter (fun c => !(p c))).length + (l.filter p).length = l.length
  | [] => rfl
  | c :: rest => by
    have ih := length_filter_not_add p rest
    cases hp : p c <;> simp [List.filter_cons, hp] <;> omega

/-- `noAdjMatch` passes from a list to its tail. -/
theorem noAdjMatch_tail (t : String) (c : Card) (l : List Card)
    (h : noAdjMatch t (c :: l) = true) : noAdjMatch t l = true := by
  cases l with
  | nil => rfl
  | cons d rest =>
    simp only [noAdjMatch, Bool.and_eq_true] at h
    exact h.2

/-! ## C2: first-card-only membership checks -/

/-- C2: on a deck with at least one card, `has_term` returns exactly the
comparison of the argument with the *first* card's term, ignoring every
later card; `has_def` likewise compares only against the first card's
definition. -/
theorem has_term_has_def_first_card_only (c : Card) (rest : List Card)
    (t dfn : String) :
    (Deck.mk (c :: rest)).has_term t = some (t == c.term)
      ∧ (Deck.mk (c :: rest)).has_def dfn = some (dfn == c.definition) :=
  ⟨rfl, rfl⟩

/-- Concrete instance of C2: the checks miss matches beyond position 0. -/
theorem has_term_has_def_first_card_only_witness :
    (Deck.mk [Card.mk "a" "1" 0, Card.mk "b" "2" 0]).has_term "b"
        = some ("b" == "a")
      ∧ (Deck.mk [Card.mk "a" "1" 0, Card.mk "b" "2" 0]).has_def ("2")
        = some ("2" == "1") :=
  has_term_has_def_first_card_only (Card.mk "a" "1" 0) [Card.mk "b" "2" 0] "b" "2"

/-! ## C10: reset stats -/

/-- C10: `reset stats` zeroes every card's mistake counter and leaves the
terms, definitions, order and size of the deck unchanged. -/
theorem reset_zeroes_mistakes_only (d : Deck) :
    (reset d).cards.map Card.term = d.cards.map Card.term
      ∧ (reset d).cards.map Card.definition = d.cards.map Card.definition
      ∧ (reset d).size = d.size
      ∧ ∀ c ∈ (reset d).cards, c.mistakes = 0 := by
  refine ⟨?_, ?_, ?_, ?_⟩
  · simp [reset, List.map_map]
    exact fun a _ => rfl
  · simp [reset, List.map_map]
    exact fun a _ => rfl
  · simp [reset, Deck.size]
  · intro c hc
    simp only [reset, List.mem_map] at hc
    obtain ⟨a, _, rfl⟩ := hc
    rfl

/-- Concrete instance of C10. -/
theorem reset_zeroes_mistakes_only_witness :
    (reset (Deck.mk [Card.mk "a" "1" 3])).cards.map Card.term
        = (Deck.mk [Card.mk "a" "1" 3]).cards.map Card.term
      ∧ (reset (Deck.mk [Card.mk "a" "1" 3])).cards.map Card.definition
        = (Deck.mk [Card.mk "a" "1" 3]).cards.map Card.definition
      ∧ (reset (Deck.mk [Card.mk "a" "1" 3])).size = (Deck.mk [Card.mk "a" "1" 3]).size
      ∧ ∀ c ∈ (reset (Deck.mk [Card.mk "a" "1" 3])).cards, c.mistakes = 0 :=
  reset_zeroes_mistakes_only (Deck.mk [Card.mk "a" "1" 3])

/-! ## C6: export -/

/-- C6: export's file contents are the concatenation, in deck order, of one
`term:definition:mistakes` line (with trailing newline) per card; the
reported count equals the number of lines written, which is the number of
cards; and the deck is empty afterwards. -/
theorem export_lines_count_clears (d : Deck) :
    (export_file d).1 = String.join (d.cards.map cardLine)
      ∧ (export_file d).2.1 = (d.cards.map cardLine).length
      ∧ (export_file d).2.1 = d.cards.length
      ∧ (export_file d).2.2.cards = [] := by
  refine ⟨?_, by simp [export_file, Deck.size], rfl, rfl⟩
  simp [export_file, String.join, List.foldl_map]

/-- Concrete instance of C6. -/
theorem export_lines_count_clears_witness :
    (export_file (Deck.mk [Card.mk "a" "1" 0])).1
        = String.join ((Deck.mk [Card.mk "a" "1" 0]).cards.map cardLine)
      ∧ (export_file (Deck.mk [Card.mk "a" "1" 0])).2.1
        = ((Deck.mk [Card.mk "a" "1" 0]).cards.map cardLine).length
      ∧ (export_file (Deck.mk [Card.mk "a" "1" 0])).2.1
        = (Deck.mk [Card.mk "a" "1" 0]).cards.length
      ∧ (export_file (Deck.mk [Card.mk "a" "1" 0])).2.2.cards = [] :=
  export_lines_count_clears (Deck.mk [Card.mk "a" "1" 0])

/-! ## C7: hardest cards -/

/-- C7: `hardest_card` returns exactly the cards whose mistake count is
nonzero and equal to the deck-wide maximum `most_mistakes`; it is empty
(without raising) on an empty deck — where `most_mistakes` itself is the
error value `none` — and when the maximum is zero. -/
theorem hardest_card_ties_max_nonzero (d : Deck) :
    d.hardest_card
        = d.cards.filter
            (fun c => c.mistakes != 0 && some c.mistakes == d.most_mistakes)
      ∧ (d.most_mistakes = none ↔ d.cards = [])
      ∧ (d.cards = [] → d.hardest_card = [])
      ∧ (d.most_mistakes = some 0 → d.hardest_card = [])
      ∧ (∀ m, d.most_mistakes = some m →
          (∀ c ∈ d.cards, c.mistakes ≤ m) ∧ ∃ c ∈ d.cards, c.mistakes = m)
      ∧ ∀ c ∈ d.hardest_card, some c.mistakes = d.most_mistakes ∧ c.mistakes ≠ 0 := by
  have hfilter : d.hardest_card
      = d.cards.filter
          (fun c => c.mistakes != 0 && some c.mistakes == d.most_mistakes) := by
    unfold Deck.hardest_card
    rw [List.filter_filter]
  refine ⟨hfilter, ?_, ?_, ?_, ?_, ?_⟩
  · simp [Deck.most_mistakes]
  · intro h
    simp [Deck.hardest_card, h]
  · intro h
    rw [hfilter, List.filter_eq_nil_iff]
    intro c _
    simp [h]
  · intro m hm
    have := List.max?_eq_some_iff'.mp hm
    obtain ⟨hmem, hub⟩ := this
    constructor
    · intro c hc
      exact hub c.mistakes (List.mem_map_of_mem _ hc)
    · obtain ⟨c, hc, hcm⟩ := List.mem_map.mp hmem
      exact ⟨c, hc, hcm⟩
  · intro c hc
    rw [hfilter] at hc
    have := List.of_mem_filter hc
    simp only [Bool.and_eq_true, bne_iff_ne, ne_eq, beq_iff_eq] at this
    exact ⟨this.2, this.1⟩

/-- Concrete instance of C7. -/
theorem hardest_card_ties_max_nonzero_witness :
    (Deck.mk [Card.mk "a" "1" 2, Card.mk "b" "2" 0]).hardest_card
        = (Deck.mk [Card.mk "a" "1" 2, Card.mk "b" "2" 0]).cards.filter
            (fun c => c.mistakes != 0
              && some c.mistakes
                == (Deck.mk [Card.mk "a" "1" 2, Card.mk "b" "2" 0]).most_mistakes)
      ∧ ((Deck.mk [Card.mk "a" "1" 2, Card.mk "b" "2" 0]).most_mistakes = none
          ↔ (Deck.mk [Card.mk "a" "1" 2, Card.mk "b" "2" 0]).cards = [])
      ∧ ((Deck.mk [Card.mk "a" "1" 2, Card.mk "b" "2" 0]).cards = []
          → (Deck.mk [Card.mk "a" "1" 2, Card.mk "b" "2" 0]).hardest_card = [])
      ∧ ((Deck.mk [Card.mk "a" "1" 2, Card.mk "b" "2" 0]).most_mistakes = some 0
          → (Deck.mk [Card.mk "a" "1" 2, Card.mk "b" "2" 0]).hardest_card = [])
      ∧ (∀ m, (Deck.mk [Card.mk "a" "1" 2, Card.mk "b" "2" 0]).most_mistakes = some m →
          (∀ c ∈ (Deck.mk [Card.mk "a" "1" 2, Card.mk "b" "2" 0]).cards, c.mistakes ≤ m)
            ∧ ∃ c ∈ (Deck.mk [Card.mk "a" "1" 2, Card.mk "b" "2" 0]).cards, c.mistakes = m)
      ∧ ∀ c ∈ (Deck.mk [Card.mk "a" "1" 2, Card.mk "b" "2" 0]).hardest_card,
          some c.mistakes = (Deck.mk [Card.mk "a" "1" 2, Card.mk "b" "2" 0]).most_mistakes
            ∧ c.mistakes ≠ 0 :=
  hardest_card_ties_max_nonzero (Deck.mk [Card.mk "a" "1" 2, Card.mk "b" "2" 0])

/-! ## C3: the add flow and the deck invariant -/

/-- Counterexample to C3 as stated: on a two-card deck satisfying the
invariant, the first-card-only checks let the second card's term and
definition through again, and the grown deck violates the invariant. -/
theorem add_invariant_counterexample :
    deckInv (Deck.mk [Card.mk "a" "1" 0, Card.mk "b" "2" 0]).cards = true
      ∧ truthy ((Deck.mk [Card.mk "a" "1" 0, Card.mk "b" "2" 0]).has_term "b") = false
      ∧ truthy ((Deck.mk [Card.mk "a" "1" 0, Card.mk "b" "2" 0]).has_def ("2")) = false
      ∧ deckInv ((add (Deck.mk [Card.mk "a" "1" 0, Card.mk "b" "2" 0]) "b" "2").cards)
          = false := by
  decide

/-- C3 (amended): on a deck with at most one card — the only decks on which
the first-card-only `has_term`/`has_def` checks see every card — the add
flow preserves the invariant that no two cards share a term and no two
cards share a definition. -/
theorem add_preserves_invariant_of_small (d : Deck) (t dfn : String)
    (hlen : d.cards.length ≤ 1)
    (hinv : deckInv d.cards = true)
    (ht : truthy (d.has_term t) = false)
    (hd : truthy (d.has_def dfn) = false) :
    deckInv ((add d t dfn).cards) = true := by
  obtain ⟨cards⟩ := d
  rcases cards with _ | ⟨c, rest⟩
  · simp [add, Deck.add_card, deckInv, distinctFrom]
  · rcases rest with _ | ⟨c2, rest2⟩
    · simp only [Deck.has_term, truthy] at ht
      simp only [Deck.has_def, truthy] at hd
      simp [add, Deck.add_card, deckInv, distinctFrom]
      refine ⟨fun h => ?_, fun h => ?_⟩
      · exact absurd (beq_iff_eq.mpr h.symm) (by simp [ht])
      · exact absurd (beq_iff_eq.mpr h.symm) (by simp [hd])
    · simp at hlen

/-- Concrete instance of the amended C3. -/
theorem add_preserves_invariant_of_small_witness :
    ((Deck.mk [Card.mk "a" "1" 0]).cards.length ≤ 1
        ∧ deckInv (Deck.mk [Card.mk "a" "1" 0]).cards = true
        ∧ truthy ((Deck.mk [Card.mk "a" "1" 0]).has_term "b") = false
        ∧ truthy ((Deck.mk [Card.mk "a" "1" 0]).has_def ("2")) = false)
      ∧ deckInv ((add (Deck.mk [Card.mk "a" "1" 0]) "b" "2").cards) = true :=
  ⟨⟨by decide, by decide, by decide, by decide⟩,
    add_preserves_invariant_of_small (Deck.mk [Card.mk "a" "1" 0]) "b" "2"
      (by decide) (by decide) (by decide) (by decide)⟩

/-! ## C4: remove_card -/

/-- `noAdjMatch` unfolds on two explicit head cells. -/
theorem noAdjMatch_cons_cons (t : String) (a b : Card) (l : List Card) :
    noAdjMatch t (a :: b :: l)
      = (!(a.term == t && b.term == t) && noAdjMatch t (b :: l)) := rfl

/-- Single unfolding of the `remove_card` loop on a cons cell. -/
theorem removeCardAux_cons (t : String) (c : Card) (rest : List Card) :
    removeCardAux t (c :: rest)
      = if c.term == t then
          (match rest with
           | [] => []
           | d :: rest' => d :: removeCardAux t rest')
        else c :: removeCardAux t rest := by
  cases rest <;> rfl

/-- When no two adjacent cards both match the removed term, the
skip-on-removal loop removes exactly the matching cards. -/
theorem removeCardAux_eq_filter (t : String) : ∀ (n : Nat) (l : List Card),
    l.length ≤ n → noAdjMatch t l = true →
    removeCardAux t l = l.filter (fun c => !(c.term == t)) := by
  intro n
  induction n with
  | zero =>
    intro l hl _
    have : l = [] := List.length_eq_zero.mp (Nat.le_zero.mp hl)
    subst this; rfl
  | succ n ih =>
    intro l hl hadj
    match l with
    | [] => rfl
    | c :: rest =>
      cases hct : c.term == t with
      | false =>
        have hrest : removeCardAux t rest = rest.filter (fun c => !(c.term == t)) := by
          refine ih rest ?_ (noAdjMatch_tail t c rest hadj)
          simp only [List.length_cons] at hl
          omega
        simp [removeCardAux_cons, hct, List.filter_cons, hrest]
      | true =>
        match rest with
        | [] => simp [removeCardAux_cons, hct, List.filter_cons]
        | d :: rest' =>
          rw [noAdjMatch_cons_cons, Bool.and_eq_true] at hadj
          have hparts := hadj
          have hd : (d.term == t) = false := by
            have := hparts.1
            simp [hct] at this
            exact beq_eq_false_iff_ne.mpr this
          have hrest' : removeCardAux t rest' = rest'.filter (fun c => !(c.term == t)) := by
            refine ih rest' ?_ (noAdjMatch_tail t d rest' hparts.2)
            simp only [List.length_cons] at hl
            omega
          simp [removeCardAux, hct, List.filter_cons, hd, hrest']

/-- C4 (amended): provided no card with the removed term is immediately
followed by another card with that term (true in particular whenever terms
are unique, as the deck invariant requires), `remove_card t` removes every
card whose term equals `t`: the result is the deck filtered of the matches,
its size drops by exactly the number of matches, and no match remains. -/
theorem remove_card_removes_matches (d : Deck) (t : String)
    (h : noAdjMatch t d.cards = true) :
    (d.remove_card t).cards = d.cards.filter (fun c => !(c.term == t))
      ∧ (d.remove_card t).cards.length
          = d.cards.length - (d.cards.filter (fun c => c.term == t)).length
      ∧ ∀ c ∈ (d.remove_card t).cards, c.term ≠ t := by
  have heq : (d.remove_card t).cards = d.cards.filter (fun c => !(c.term == t)) :=
    removeCardAux_eq_filter t d.cards.length d.cards le_rfl h
  refine ⟨heq, ?_, ?_⟩
  · rw [heq]
    have := length_filter_not_add (fun c => c.term == t) d.cards
    omega
  · intro c hc
    rw [heq] at hc
    have := List.of_mem_filter hc
    simpa using this

/-- Concrete instance of the amended C4. -/
theorem remove_card_removes_matches_witness :
    noAdjMatch "a" (Deck.mk [Card.mk "a" "1" 0, Card.mk "b" "2" 0]).cards = true
      ∧ (((Deck.mk [Card.mk "a" "1" 0, Card.mk "b" "2" 0]).remove_card "a").cards
            = (Deck.mk [Card.mk "a" "1" 0, Card.mk "b" "2" 0]).cards.filter
                (fun c => !(c.term == "a"))
          ∧ ((Deck.mk [Card.mk "a" "1" 0, Card.mk "b" "2" 0]).remove_card "a").cards.length
              = (Deck.mk [Card.mk "a" "1" 0, Card.mk "b" "2" 0]).cards.length
                - ((Deck.mk [Card.mk "a" "1" 0, Card.mk "b" "2" 0]).cards.filter
                    (fun c => c.term == "a")).length
          ∧ ∀ c ∈ ((Deck.mk [Card.mk "a" "1" 0, Card.mk "b" "2" 0]).remove_card "a").cards,
              c.term ≠ "a") :=
  ⟨by decide,
    remove_card_removes_matches (Deck.mk [Card.mk "a" "1" 0, Card.mk "b" "2" 0]) "a"
      (by decide)⟩

/-- Counterexample to C4 as stated: removing `"a"` from a deck whose two
cards both carry term `"a"` leaves the second one behind (the live-list
iteration skips it), so the size drops by 1, not 2, and a matching card
remains. -/
theorem remove_card_counterexample :
    ((Deck.mk [Card.mk "a" "1" 0, Card.mk "a" "2" 0]).remove_card "a").cards
        = [Card.mk "a" "2" 0]
      ∧ ∃ c ∈ ((Deck.mk [Card.mk "a" "1" 0, Card.mk "a" "2" 0]).remove_card "a").cards,
          c.term = "a" :=
  ⟨by decide, Card.mk "a" "2" 0, by decide, rfl⟩

/-! ## C8: scoring one practice question -/

/-- A practice step either leaves the deck untouched (exact match) or
replaces the asked card, at its index, by the same card with its mistake
counter bumped. -/
theorem practiceStep_cards_eq (d : Deck) (card : Card) (j : Nat) (a : String) :
    (a = card.definition ∧ (practiceStep d card j a).1 = d)
      ∨ (a ≠ card.definition
          ∧ (practiceStep d card j a).1.cards = d.cards.set j card.add_mistake) := by
  by_cases hb : a = card.definition
  · left
    exact ⟨hb, by simp [practiceStep, hb]⟩
  · right
    refine ⟨hb, ?_⟩
    have hbeq : (a == card.definition) = false := beq_eq_false_iff_ne.mpr hb
    simp only [practiceStep, hbeq]
    rw [if_neg (by simp)]
    split <;> rfl

/-- C8: for a question on the card at index `j` with answer `a`: an exact
match mutates no card; otherwise exactly that card's mistake counter grows
by 1 (all other positions unchanged), and when `a` is the definition of
some card of the deck the feedback names the term of the *first* card in
deck order whose definition equals `a`. -/
theorem practice_question_scoring (d : Deck) (card : Card) (j : Nat) (a : String)
    (h : d.cards[j]? = some card) :
    (a = card.definition → practiceStep d card j a = (d, Feedback.correct))
      ∧ (a ≠ card.definition →
          (practiceStep d card j a).1.cards = d.cards.set j card.add_mistake
            ∧ (practiceStep d card j a).1.cards[j]?
                = some (Card.mk card.term card.definition (card.mistakes + 1))
            ∧ ∀ i, i ≠ j → (practiceStep d card j a).1.cards[i]? = d.cards[i]?)
      ∧ (a ≠ card.definition → ∀ c0,
          d.cards.find? (fun c => c.definition == a) = some c0 →
          c0.definition = a ∧ c0 ≠ card
            ∧ (practiceStep d card j a).2
                = Feedback.swappedWrong card.definition (some c0.term)) := by
  have hlt : j < d.cards.length := (List.getElem?_eq_some_iff.mp h).1
  refine ⟨?_, ?_, ?_⟩
  · intro hb
    simp [practiceStep, hb]
  · intro hb
    have hset : (practiceStep d card j a).1.cards = d.cards.set j card.add_mistake := by
      rcases practiceStep_cards_eq d card j a with ⟨he, _⟩ | ⟨_, hs⟩
      · exact absurd he hb
      · exact hs
    refine ⟨hset, ?_, ?_⟩
    · rw [hset, List.getElem?_set_self hlt]
      rfl
    · intro i hi
      rw [hset]
      exact List.getElem?_set_ne (Ne.symm hi)
  · intro hb c0 hfind
    have hc0 : c0.definition = a := by simpa using List.find?_some hfind
    have hmem : c0 ∈ d.cards := List.mem_of_find?_eq_some hfind
    have hne : c0 ≠ card := fun hcc => hb (hcc ▸ hc0).symm
    have hmemdef : a ∈ d.definitions := by
      rw [Deck.definitions]
      exact List.mem_map.mpr ⟨c0, hmem, hc0⟩
    have hbeq : (a == card.definition) = false := beq_eq_false_iff_ne.mpr hb
    have hgt : d.get_term a = some c0.term := by
      rw [Deck.get_term, getTermAux_eq_find, hfind]
      rfl
    refine ⟨hc0, hne, ?_⟩
    simp [practiceStep, hbeq, hmemdef, hgt]

/-- Concrete instance of C8, the swapped-match scenario of the spec:
deck `[("a","1"),("b","2")]`, question on card "a", answer `"2"`. -/
theorem practice_question_scoring_witness :
    (Deck.mk [Card.mk "a" "1" 0, Card.mk "b" "2" 0]).cards[0]?
        = some (Card.mk "a" "1" 0)
      ∧ (("2" = (Card.mk "a" "1" 0).definition →
            practiceStep (Deck.mk [Card.mk "a" "1" 0, Card.mk "b" "2" 0])
                (Card.mk "a" "1" 0) 0 "2"
              = (Deck.mk [Card.mk "a" "1" 0, Card.mk "b" "2" 0], Feedback.correct))
          ∧ ("2" ≠ (Card.mk "a" "1" 0).definition →
              (practiceStep (Deck.mk [Card.mk "a" "1" 0, Card.mk "b" "2" 0])
                  (Card.mk "a" "1" 0) 0 "2").1.cards
                  = (Deck.mk [Card.mk "a" "1" 0, Card.mk "b" "2" 0]).cards.set 0
                      (Card.mk "a" "1" 0).add_mistake
                ∧ (practiceStep (Deck.mk [Card.mk "a" "1" 0, Card.mk "b" "2" 0])
                    (Card.mk "a" "1" 0) 0 "2").1.cards[0]?
                    = some (Card.mk (Card.mk "a" "1" 0).term
                        (Card.mk "a" "1" 0).definition ((Card.mk "a" "1" 0).mistakes + 1))
                ∧ ∀ i, i ≠ 0 →
                    (practiceStep (Deck.mk [Card.mk "a" "1" 0, Card.mk "b" "2" 0])
                      (Card.mk "a" "1" 0) 0 "2").1.cards[i]?
                      = (Deck.mk [Card.mk "a" "1" 0, Card.mk "b" "2" 0]).cards[i]?)
          ∧ ("2" ≠ (Card.mk "a" "1" 0).definition → ∀ c0,
              (Deck.mk [Card.mk "a" "1" 0, Card.mk "b" "2" 0]).cards.find?
                  (fun c => c.definition == "2") = some c0 →
              c0.definition = "2" ∧ c0 ≠ Card.mk "a" "1" 0
                ∧ (practiceStep (Deck.mk [Card.mk "a" "1" 0, Card.mk "b" "2" 0])
                    (Card.mk "a" "1" 0) 0 "2").2
                    = Feedback.swappedWrong (Card.mk "a" "1" 0).definition
                        (some c0.term))) :=
  ⟨by decide,
    practice_question_scoring (Deck.mk [Card.mk "a" "1" 0, Card.mk "b" "2" 0])
      (Card.mk "a" "1" 0) 0 "2" (by decide)⟩

/-! ## C1: practice on an empty deck -/

/-- C1 (documents the code bug): on the empty deck, with any positive
repetition count, `card_practice` never terminates — the inner `for` loop
body never runs, `count` never increases, and `while count < times` spins.
No amount of fuel makes the loop finish.  The spec instead requires the
session to ask zero questions and stop at once. -/
theorem card_practice_empty_deck_spins (times : Nat) (answers : Nat → String)
    (htimes : 0 < times) :
    ∀ fuel, card_practice fuel (Deck.mk []) times answers = none := by
  intro fuel
  unfold card_practice
  suffices h : ∀ f (asked : List String),
      practiceLoop times answers f (Deck.mk []) 0 asked = none from h fuel []
  intro f
  induction f with
  | zero => intro asked; rfl
  | succ f ih =>
    intro asked
    have hstep : practiceLoop times answers (f + 1) (Deck.mk []) 0 asked
        = if 0 < times then practiceLoop times answers f (Deck.mk []) 0 (asked ++ [])
          else some (Deck.mk [], asked) := rfl
    rw [hstep, if_pos htimes]
    exact ih (asked ++ [])

/-- Concrete instance of C1's divergence: one repetition on the empty deck. -/
theorem card_practice_empty_deck_spins_witness :
    0 < 1 ∧ ∀ fuel, card_practice fuel (Deck.mk []) 1 (fun _ => "") = none :=
  ⟨by decide, card_practice_empty_deck_spins 1 (fun _ => "") (by decide)⟩

/-! ## C9: a practice session on a non-empty deck -/

/-- The inner loop on an exhausted pass. -/
theorem runPass_nil (times : Nat) (answers : Nat → String) (d : Deck) (count : Nat) :
    runPass times answers [] d count = ⟨d, count, []⟩ := rfl

/-- The inner loop stops as soon as `count` reaches `times`. -/
theorem runPass_stop (times : Nat) (answers : Nat → String) (j : Nat)
    (rest : List Nat) (d : Deck) :
    runPass times answers (j :: rest) d times = ⟨d, times, []⟩ := by
  simp [runPass]

/-- One question of the inner loop. -/
theorem runPass_cons (times : Nat) (answers : Nat → String) (j : Nat)
    (rest : List Nat) (d : Deck) (count : Nat) (card : Card)
    (hne : count ≠ times) (hget : d.cards[j]? = some card) :
    runPass times answers (j :: rest) d count
      = ⟨(runPass times answers rest (practiceStep d card j (answers count)).1
            (count + 1)).deck,
         (runPass times answers rest (practiceStep d card j (answers count)).1
            (count + 1)).count,
         card.term
           :: (runPass times answers rest (practiceStep d card j (answers count)).1
                (count + 1)).asked⟩ := by
  simp only [runPass]
  rw [if_neg hne, hget]

/-- `practiceStep` never changes the terms of the deck (and hence neither
its length): only the asked card's mistake counter can move. -/
theorem practiceStep_map_term (d : Deck) (card : Card) (j : Nat) (a : String)
    (h : d.cards[j]? = some card) :
    (practiceStep d card j a).1.cards.map Card.term = d.cards.map Card.term := by
  rcases practiceStep_cards_eq d card j a with ⟨_, he⟩ | ⟨_, hs⟩
  · rw [he]
  · rw [hs, List.map_set]
    apply list_set_self
    rw [List.getElem?_map, h]
    rfl

/-- Specification of one full pass of the inner `for` loop, started at
position `j` with `m` positions left: it asks `min m (times - count)`
questions — the cards at positions `j, j+1, ...` in order — advances
`count` accordingly, and preserves the deck's terms. -/
theorem runPass_spec (times : Nat) (answers : Nat → String) :
    ∀ (m j : Nat) (d : Deck) (count : Nat),
    j + m = d.cards.length → count ≤ times →
    (runPass times answers (List.range' j m) d count).count
        = count + min m (times - count)
      ∧ (runPass times answers (List.range' j m) d count).deck.cards.map Card.term
          = d.cards.map Card.term
      ∧ (runPass times answers (List.range' j m) d count).asked
          = (List.range' j (min m (times - count))).map
              (fun i => (d.cards.map Card.term).getD i "") := by
  intro m
  induction m with
  | zero =>
    intro j d count _ _
    simp [runPass_nil]
  | succ m ih =>
    intro j d count hlen hcount
    rw [List.range'_succ]
    by_cases hct : count = times
    · subst hct
      rw [runPass_stop]
      simp
    · have hlt : count < times := Nat.lt_of_le_of_ne hcount hct
      have hj : j < d.cards.length := by omega
      obtain ⟨card, hget⟩ : ∃ c, d.cards[j]? = some c :=
        ⟨_, List.getElem?_eq_getElem hj⟩
      rw [runPass_cons times answers j _ d count _ hct hget]
      set d2 := (practiceStep d card j (answers count)).1 with hd2
      have hmap2 : d2.cards.map Card.term = d.cards.map Card.term :=
        practiceStep_map_term d card j (answers count) hget
      have hlen2 : d2.cards.length = d.cards.length := by
        have := congrArg List.length hmap2
        simpa using this
      obtain ⟨ihc, ihm, iha⟩ := ih (j + 1) d2 (count + 1) (by omega) hlt
      have hmin : min (m + 1) (times - count) = min m (times - (count + 1)) + 1 := by
        omega
      refine ⟨?_, ?_, ?_⟩
      · simpa [ihc] using by omega
      · simpa using ihm.trans hmap2
      · have hterm : (d.cards.map Card.term).getD j "" = card.term := by
          rw [List.getD_eq_getElem?_getD, List.getElem?_map, hget]
          rfl
        simp only [iha, hmap2, hmin, List.range'_succ, List.map_cons, hterm]

/-- One unfolding of the outer `while` loop. -/
theorem practiceLoop_succ (times : Nat) (answers : Nat → String) (fuel : Nat)
    (d : Deck) (count : Nat) (asked : List String) :
    practiceLoop times answers (fuel + 1) d count asked
      = if count < times then
          practiceLoop times answers fuel
            (runPass times answers (List.range d.size) d count).deck
            (runPass times answers (List.range d.size) d count).count
            (asked ++ (runPass times answers (List.range d.size) d count).asked)
        else some (d, asked) := rfl

/-- Specification of the outer `while count < times` loop on a non-empty
deck, entered with `count` either a multiple of the deck size (each pass
restarts from card 0) or already equal to `times`: with enough fuel it
terminates, having asked exactly the cards at positions
`count % size, ...` of the cyclic deck order, and preserving terms. -/
theorem practiceLoop_spec (times : Nat) (answers : Nat → String) :
    ∀ (fuel : Nat) (d : Deck) (count : Nat) (asked0 : List String),
    d.cards.length ≠ 0 → count ≤ times →
    (d.cards.length ∣ count ∨ count = times) →
    times - count < fuel →
    ∃ d2, practiceLoop times answers fuel d count asked0
        = some (d2, asked0
            ++ (List.range' count (times - count)).map
                (fun i => (d.cards.map Card.term).getD (i % d.cards.length) ""))
      ∧ d2.cards.map Card.term = d.cards.map Card.term
      ∧ (count = times → d2 = d) := by
  intro fuel
  induction fuel with
  | zero =>
    intro d count asked0 _ _ _ hf
    omega
  | succ fuel ih =>
    intro d count asked0 hn hcount hdvd hf
    by_cases hct : count = times
    · subst hct
      refine ⟨d, ?_, rfl, fun _ => rfl⟩
      rw [practiceLoop_succ, if_neg (Nat.lt_irrefl _)]
      simp
    · have hlt : count < times := Nat.lt_of_le_of_ne hcount hct
      obtain ⟨q, hq⟩ := hdvd.resolve_right hct
      have hrange : List.range d.size = List.range' 0 d.cards.length := by
        rw [Deck.size, List.range_eq_range']
      obtain ⟨hc1, hm1, ha1⟩ :=
        runPass_spec times answers d.cards.length 0 d count (by omega) hcount
      set s := runPass times answers (List.range' 0 d.cards.length) d count with hs
      set k := min d.cards.length (times - count) with hk
      have hk1 : 1 ≤ k := by omega
      have hkn : k ≤ d.cards.length := by omega
      have hlen_s : s.deck.cards.length = d.cards.length := by
        have := congrArg List.length hm1
        simpa using this
      have hdvd2 : s.deck.cards.length ∣ s.count ∨ s.count = times := by
        rw [hc1, hlen_s]
        by_cases h2 : count + k = times
        · exact Or.inr h2
        · refine Or.inl ⟨q + 1, ?_⟩
          have hkfull : k = d.cards.length := by omega
          rw [Nat.mul_succ, ← hq, hkfull]
      obtain ⟨d2, hrun2, hm2, _⟩ :=
        ih s.deck s.count (asked0 ++ s.asked) (by omega) (by omega) hdvd2 (by omega)
      have hasked : s.asked
            ++ (List.range' s.count (times - s.count)).map
                (fun i => (s.deck.cards.map Card.term).getD (i % s.deck.cards.length) "")
          = (List.range' count (times - count)).map
              (fun i => (d.cards.map Card.term).getD (i % d.cards.length) "") := by
        rw [hm1, hlen_s, ha1, hc1]
        have hsplit : List.range' count k ++ List.range' (count + k) (times - count - k)
            = List.range' count (times - count) := by
          have hra := List.range'_append_1 count k (times - count - k)
          rwa [show times - count - k + k = times - count from by omega] at hra
        rw [← hsplit, List.map_append]
        congr 1
        · rw [List.range'_eq_map_range count k, ← List.range_eq_range', List.map_map]
          apply List.map_congr_left
          intro r hr
          have hrk : r < k := List.mem_range.mp hr
          have hmod : (count + r) % d.cards.length = r := by
            rw [hq, Nat.mul_add_mod]
            exact Nat.mod_eq_of_lt (by omega)
          simp [Function.comp, hmod]
        · rw [Nat.sub_sub]
      refine ⟨d2, ?_, hm2.trans hm1, fun h => absurd h hct⟩
      rw [practiceLoop_succ, if_pos hlt, hrange, ← hs, hrun2, List.append_assoc, hasked]

/-- C9: on a non-empty deck, `card_practice` with repetition count `times`
terminates (fuel `times + 1` always suffices) having asked exactly `times`
questions, presenting the cards in deck order and restarting from the
first card when the count exceeds the deck size; with `times = 0` it asks
nothing and mutates nothing. -/
theorem card_practice_asks_exactly (d : Deck) (times : Nat)
    (answers : Nat → String) (h : d.cards ≠ []) :
    ∃ d2 asked, card_practice (times + 1) d times answers = some (d2, asked)
      ∧ asked.length = times
      ∧ asked = (List.range times).map
          (fun i => (d.cards.map Card.term).getD (i % d.cards.length) "")
      ∧ (times = 0 → d2 = d ∧ asked = []) := by
  have hn : d.cards.length ≠ 0 := by simpa using h
  obtain ⟨d2, hrun, hmap, hzero⟩ := practiceLoop_spec times answers (times + 1) d 0 []
    hn (Nat.zero_le _) (Or.inl (dvd_zero _)) (by omega)
  rw [Nat.sub_zero, ← List.range_eq_range', List.nil_append] at hrun
  refine ⟨d2, _, hrun, ?_, rfl, ?_⟩
  · rw [List.length_map, List.length_range]
  · intro h0
    subst h0
    exact ⟨hzero rfl, by simp⟩

/-- Concrete instance of C9: a one-card deck asked twice cycles through
the single card both times. -/
theorem card_practice_asks_exactly_witness :
    (Deck.mk [Card.mk "a" "1" 0]).cards ≠ []
      ∧ ∃ d2 asked,
          card_practice (2 + 1) (Deck.mk [Card.mk "a" "1" 0]) 2 (fun _ => "1")
              = some (d2, asked)
            ∧ asked.length = 2
            ∧ asked = (List.range 2).map
                (fun i => ((Deck.mk [Card.mk "a" "1" 0]).cards.map Card.term).getD
                  (i % (Deck.mk [Card.mk "a" "1" 0]).cards.length) "")
            ∧ (2 = 0 → d2 = Deck.mk [Card.mk "a" "1" 0] ∧ asked = []) :=
  ⟨by simp,
    card_practice_asks_exactly (Deck.mk [Card.mk "a" "1" 0]) 2 (fun _ => "1")
      (by simp)⟩

/-! ## C5: export/import round trip -/

/-- `parseNatAux` processes an appended suffix after the prefix. -/
theorem parseNatAux_append : ∀ (xs ys : List Char) (acc : Nat),
    parseNatAux acc (xs ++ ys)
      = match parseNatAux acc xs with
        | some a => parseNatAux a ys
        | none => none
  | [], ys, acc => rfl
  | c :: xs, ys, acc => by
    simp only [List.cons_append, parseNatAux]
    cases hd : charDigit? c with
    | none => rfl
    | some dg => exact parseNatAux_append xs ys (acc * 10 + dg)

/-- Reading back the digit character of a decimal digit. -/
theorem charDigit?_decDigitChar (dg : Nat) (h : dg < 10) :
    charDigit? (decDigitChar dg) = some dg := by
  interval_cases dg <;> decide

/-- Digit characters are the ASCII codes 48–57. -/
theorem decDigitChar_ascii (dg : Nat) (h : dg < 10) :
    48 ≤ (decDigitChar dg).toNat ∧ (decDigitChar dg).toNat ≤ 57 := by
  interval_cases dg <;> decide

/-- Parsing the rendered digit list of a little-endian digit expansion. -/
theorem parseNatAux_digits : ∀ (L : List Nat) (acc : Nat), (∀ dg ∈ L, dg < 10) →
    parseNatAux acc ((L.map decDigitChar).reverse)
      = some (acc * 10 ^ L.length + Nat.ofDigits 10 L)
  | [], acc, _ => by simp [parseNatAux, Nat.ofDigits_nil]
  | dg :: L, acc, h => by
    rw [List.map_cons, List.reverse_cons, parseNatAux_append]
    rw [parseNatAux_digits L acc (fun x hx => h x (List.mem_cons_of_mem dg hx))]
    simp only []
    rw [show parseNatAux (acc * 10 ^ L.length + Nat.ofDigits 10 L) [decDigitChar dg]
        = some ((acc * 10 ^ L.length + Nat.ofDigits 10 L) * 10 + dg) from by
      simp [parseNatAux, charDigit?_decDigitChar dg (h dg (List.mem_cons_self dg L))]]
    rw [Nat.ofDigits_cons]
    congr 1
    simp only [List.length_cons, Nat.pow_succ]
    ring

/-- `parseNat` of a `String.mk` of a non-empty character list. -/
theorem parseNat_mk (l : List Char) (h : l ≠ []) :
    parseNat (String.mk l) = parseNatAux 0 l := by
  cases l with
  | nil => exact absurd rfl h
  | cons c cs => rfl

/-- Python's `int` reads back exactly the decimal numeral the f-string
wrote: the embedded decimal print/parse pair round-trips. -/
theorem parseNat_natRepr (n : Nat) : parseNat (natRepr n) = some n := by
  by_cases h0 : n = 0
  · subst h0
    rfl
  · have hne : ((Nat.digits 10 n).map decDigitChar).reverse ≠ [] := by
      simp [Nat.digits_ne_nil_iff_ne_zero.mpr h0]
    rw [natRepr, if_neg h0, parseNat_mk _ hne]
    rw [parseNatAux_digits (Nat.digits 10 n) 0
      (fun dg hdg => Nat.digits_lt_base (by norm_num) hdg)]
    simp [Nat.ofDigits_digits]

/-- ASCII digit characters are not whitespace. -/
theorem isSpace_of_digit (c : Char) (h : 48 ≤ c.toNat ∧ c.toNat ≤ 57) :
    isSpace c = false := by
  obtain ⟨h1, h2⟩ := h
  simp only [isSpace, Bool.or_eq_false_iff, beq_eq_false_iff_ne, ne_eq]
  refine ⟨⟨⟨⟨⟨?_, ?_⟩, ?_⟩, ?_⟩, ?_⟩, ?_⟩ <;>
    · intro he
      subst he
      revert h1 h2
      decide

/-- `dropWhile` is the identity on a list none of whose elements satisfy
the predicate. -/
theorem dropWhile_eq_self_of_all {α : Type} (p : α → Bool) :
    ∀ (l : List α), (∀ c ∈ l, p c = false) → List.dropWhile p l = l
  | [], _ => rfl
  | c :: l, h => by
    rw [List.dropWhile_cons, h c (List.mem_cons_self c l)]
    simp

/-- Stripping a non-empty whitespace-free field with a trailing newline
recovers the field: exactly the `card[2].strip()` situation of import. -/
theorem stripChars_append_newline (cs : List Char) (hne : cs ≠ [])
    (hnospace : ∀ c ∈ cs, isSpace c = false) :
    stripChars (cs ++ ['\n']) = cs := by
  unfold stripChars
  have h1 : List.dropWhile isSpace (cs ++ ['\n']) = cs ++ ['\n'] := by
    obtain ⟨c, cs', rfl⟩ := List.exists_cons_of_ne_nil hne
    rw [List.cons_append, List.dropWhile_cons, hnospace c (List.mem_cons_self c cs')]
    simp
  rw [h1, List.reverse_append]
  simp only [List.reverse_cons, List.reverse_nil, List.nil_append, List.singleton_append]
  rw [List.dropWhile_cons, show isSpace '\n' = true from rfl]
  simp only [if_true]
  rw [dropWhile_eq_self_of_all isSpace cs.reverse
    (fun c hc => hnospace c (List.mem_reverse.mp hc))]
  exact List.reverse_reverse cs

/-- Splitting a separator-free chunk yields a single field. -/
theorem splitOnCharAux_no_sep (sep : Char) : ∀ (cs acc : List Char),
    (∀ c ∈ cs, (c == sep) = false) →
    splitOnCharAux sep cs acc = [acc.reverse ++ cs]
  | [], acc, _ => by simp [splitOnCharAux]
  | c :: cs, acc, h => by
    rw [show splitOnCharAux sep (c :: cs) acc
        = if c == sep then acc.reverse :: splitOnCharAux sep cs []
          else splitOnCharAux sep cs (c :: acc) from rfl]
    rw [h c (List.mem_cons_self c cs)]
    simp only [Bool.false_eq_true, if_false]
    rw [splitOnCharAux_no_sep sep cs (c :: acc)
      (fun x hx => h x (List.mem_cons_of_mem c hx))]
    simp

/-- Splitting cuts off one separator-free field at the first separator. -/
theorem splitOnCharAux_seg (sep : Char) : ∀ (body rest acc : List Char),
    (∀ c ∈ body, (c == sep) = false) →
    splitOnCharAux sep (body ++ sep :: rest) acc
      = (acc.reverse ++ body) :: splitOnCharAux sep rest []
  | [], rest, acc, _ => by simp [splitOnCharAux]
  | c :: body, rest, acc, h => by
    rw [List.cons_append]
    rw [show splitOnCharAux sep (c :: (body ++ sep :: rest)) acc
        = if c == sep then acc.reverse :: splitOnCharAux sep (body ++ sep :: rest) []
          else splitOnCharAux sep (body ++ sep :: rest) (c :: acc) from rfl]
    rw [h c (List.mem_cons_self c body)]
    simp only [Bool.false_eq_true, if_false]
    rw [splitOnCharAux_seg sep body rest (c :: acc)
      (fun x hx => h x (List.mem_cons_of_mem c hx))]
    simp

/-- `readlines` cuts off one newline-terminated line. -/
theorem readlinesAux_seg : ∀ (body rest acc : List Char),
    (∀ c ∈ body, (c == '\n') = false) →
    readlinesAux (body ++ '\n' :: rest) acc
      = (acc.reverse ++ body ++ ['\n']) :: readlinesAux rest []
  | [], rest, acc, _ => by simp [readlinesAux]
  | c :: body, rest, acc, h => by
    rw [List.cons_append]
    rw [show readlinesAux (c :: (body ++ '\n' :: rest)) acc
        = if c == '\n' then (acc.reverse ++ ['\n']) :: readlinesAux (body ++ '\n' :: rest) []
          else readlinesAux (body ++ '\n' :: rest) (c :: acc) from rfl]
    rw [h c (List.mem_cons_self c body)]
    simp only [Bool.false_eq_true, if_false]
    rw [readlinesAux_seg body rest (c :: acc)
      (fun x hx => h x (List.mem_cons_of_mem c hx))]
    simp

/-- `readlines` on a concatenation of newline-terminated lines returns
exactly those lines. -/
theorem readlinesAux_lines : ∀ (lines : List (List Char)),
    (∀ l ∈ lines, ∃ body, l = body ++ ['\n'] ∧ ∀ c ∈ body, (c == '\n') = false) →
    readlinesAux lines.flatten [] = lines
  | [], _ => rfl
  | l :: lines, h => by
    obtain ⟨body, rfl, hbody⟩ := h l (List.mem_cons_self l lines)
    rw [List.flatten_cons, List.append_assoc, List.singleton_append, readlinesAux_seg body _ [] hbody]
    rw [readlinesAux_lines lines (fun x hx => h x (List.mem_cons_of_mem _ hx))]
    simp

/-- Every character of `natRepr n` is an ASCII decimal digit. -/
theorem natRepr_chars (n : Nat) :
    ∀ c ∈ (natRepr n).data, 48 ≤ c.toNat ∧ c.toNat ≤ 57 := by
  intro c hc
  by_cases h0 : n = 0
  · subst h0
    have : c = '0' := by simpa [natRepr] using hc
    subst this
    decide
  · rw [natRepr, if_neg h0] at hc
    rw [show (String.mk (((Nat.digits 10 n).map decDigitChar).reverse)).data
        = ((Nat.digits 10 n).map decDigitChar).reverse from rfl,
      List.mem_reverse] at hc
    obtain ⟨dg, hdg, rfl⟩ := List.mem_map.mp hc
    exact decDigitChar_ascii dg (Nat.digits_lt_base (by norm_num) hdg)

/-- The rendered numeral is never empty. -/
theorem natRepr_ne_nil (n : Nat) : (natRepr n).data ≠ [] := by
  by_cases h0 : n = 0
  · subst h0
    simp [natRepr]
  · rw [natRepr, if_neg h0]
    simpa using Nat.digits_ne_nil_iff_ne_zero.mpr h0

/-- The characters written for one card. -/
theorem cardLine_data (c : Card) : (cardLine c).data = lineChars c := by
  simp [cardLine, lineChars, String.data_append, List.append_assoc]

/-- The file contents produced by export's sequential writes. -/
theorem export_foldl_data : ∀ (cards : List Card) (s : String),
    (cards.foldl (fun acc c => acc ++ cardLine c) s).data
      = s.data ++ (cards.map lineChars).flatten
  | [], s => by simp
  | c :: cards, s => by
    rw [List.foldl_cons, export_foldl_data cards (s ++ cardLine c)]
    rw [String.data_append, cardLine_data]
    simp [List.append_assoc]

/-- An exported line is a newline-terminated record whose body contains no
newline, provided the card's fields are clean. -/
theorem lineChars_shape (c : Card) (hclean : cleanCard c) :
    ∃ body, lineChars c = body ++ ['\n'] ∧ ∀ x ∈ body, (x == '\n') = false := by
  obtain ⟨ht1, ht2, hd1, hd2⟩ := hclean
  refine ⟨c.term.data ++ (':' :: (c.definition.data ++ (':' :: (natRepr c.mistakes).data))),
    ?_, ?_⟩
  · unfold lineChars
    simp [List.append_assoc]
  · intro x hx
    rw [beq_eq_false_iff_ne]
    intro he
    subst he
    rcases List.mem_append.mp hx with h1 | h1
    · exact ht2 h1
    rcases List.mem_cons.mp h1 with h2 | h2
    · exact absurd h2 (by decide)
    rcases List.mem_append.mp h2 with h3 | h3
    · exact hd2 h3
    rcases List.mem_cons.mp h3 with h4 | h4
    · exact absurd h4 (by decide)
    obtain ⟨ha, _⟩ := natRepr_chars c.mistakes _ h4
    exact absurd ha (by decide)

/-- The third exported field (numeral plus newline) contains no colon. -/
theorem natRepr_no_colon (n : Nat) :
    ∀ x ∈ (natRepr n).data ++ ['\n'], (x == ':') = false := by
  intro x hx
  rw [beq_eq_false_iff_ne]
  rcases List.mem_append.mp hx with hx | hx
  · obtain ⟨_, hb⟩ := natRepr_chars n x hx
    intro he
    subst he
    exact absurd hb (by decide)
  · have : x = '\n' := by simpa using hx
    subst this
    decide

/-- Parsing one exported line recovers the card, when the card is clean. -/
theorem parseLine_lineChars (c : Card) (hclean : cleanCard c) :
    parseLine (String.mk (lineChars c)) = some c := by
  obtain ⟨ht1, ht2, hd1, hd2⟩ := hclean
  have hterm : ∀ x ∈ c.term.data, (x == ':') = false :=
    fun x hx => beq_eq_false_iff_ne.mpr (fun he => ht1 (he ▸ hx))
  have hdef : ∀ x ∈ c.definition.data, (x == ':') = false :=
    fun x hx => beq_eq_false_iff_ne.mpr (fun he => hd1 (he ▸ hx))
  unfold parseLine pySplit
  rw [show (String.mk (lineChars c)).data = lineChars c from rfl]
  unfold lineChars
  rw [splitOnCharAux_seg ':' c.term.data _ [] hterm]
  rw [splitOnCharAux_seg ':' c.definition.data _ [] hdef]
  rw [splitOnCharAux_no_sep ':' ((natRepr c.mistakes).data ++ ['\n']) []
    (natRepr_no_colon c.mistakes)]
  show (parseNat (pyStrip (String.mk ((natRepr c.mistakes).data ++ ['\n'])))).map
      (fun k => Card.mk c.term c.definition k) = some c
  have hstrip : pyStrip (String.mk ((natRepr c.mistakes).data ++ ['\n']))
      = natRepr c.mistakes := by
    unfold pyStrip
    rw [show (String.mk ((natRepr c.mistakes).data ++ ['\n'])).data
        = (natRepr c.mistakes).data ++ ['\n'] from rfl]
    rw [stripChars_append_newline _ (natRepr_ne_nil c.mistakes)
      (fun x hx => isSpace_of_digit x (natRepr_chars c.mistakes x hx))]
  rw [hstrip, parseNat_natRepr]
  rfl

/-- The import loop over the exported lines of clean cards appends exactly
those cards. -/
theorem importLines_clean : ∀ (cards acc : List Card),
    (∀ c ∈ cards, cleanCard c) →
    importLines acc (cards.map (fun c => String.mk (lineChars c))) = some (acc ++ cards)
  | [], acc, _ => by simp [importLines]
  | c :: cards, acc, h => by
    rw [List.map_cons]
    rw [show importLines acc
          (String.mk (lineChars c) :: cards.map (fun x => String.mk (lineChars x)))
        = match parseLine (String.mk (lineChars c)) with
          | some k => importLines (acc ++ [k]) (cards.map (fun x => String.mk (lineChars x)))
          | none => none from rfl]
    rw [parseLine_lineChars c (h c (List.mem_cons_self c cards))]
    show importLines (acc ++ [c]) (cards.map (fun x => String.mk (lineChars x)))
        = some (acc ++ c :: cards)
    rw [importLines_clean cards (acc ++ [c]) (fun x hx => h x (List.mem_cons_of_mem c hx))]
    simp

/-- C5 (amended): for every deck whose terms and definitions contain
neither the field separator `:` nor a newline, exporting and then
importing the produced file into an empty deck reconstructs cards with
identical term/definition/mistakes triples, in the same order. -/
theorem export_import_roundtrip (cards : List Card)
    (h : ∀ c ∈ cards, cleanCard c) :
    import_file (Deck.mk []) (export_file (Deck.mk cards)).1 = some (Deck.mk cards) := by
  have hcontent : (export_file (Deck.mk cards)).1.data = (cards.map lineChars).flatten := by
    unfold export_file
    simpa using export_foldl_data cards ""
  have hlines : ∀ l ∈ cards.map lineChars,
      ∃ body, l = body ++ ['\n'] ∧ ∀ x ∈ body, (x == '\n') = false := by
    intro l hl
    obtain ⟨c, hc, rfl⟩ := List.mem_map.mp hl
    exact lineChars_shape c (h c hc)
  have hreadlines : readlines (export_file (Deck.mk cards)).1
      = cards.map (fun c => String.mk (lineChars c)) := by
    unfold readlines
    rw [hcontent, readlinesAux_lines (cards.map lineChars) hlines, List.map_map]
    rfl
  unfold import_file
  rw [hreadlines]
  rw [show (Deck.mk ([] : List Card)).cards = [] from rfl]
  rw [importLines_clean cards [] h]
  simp

/-- Counterexample to C5 as stated: a colon inside a term shifts the
fields (the mistake field becomes non-numeric and import crashes), and a
newline inside a term splits the record across two lines (the first of
which has too few fields).  Either way the round trip fails. -/
theorem export_import_counterexample :
    import_file (Deck.mk []) (export_file (Deck.mk [Card.mk "a:b" "c" 0])).1
        ≠ some (Deck.mk [Card.mk "a:b" "c" 0])
      ∧ import_file (Deck.mk [])
          (export_file (Deck.mk [Card.mk "a\nb" "c" 0])).1
        ≠ some (Deck.mk [Card.mk "a\nb" "c" 0]) := by
  decide

/-- Concrete instance of the amended C5. -/
theorem export_import_roundtrip_witness :
    (∀ c ∈ [Card.mk "a" "1" 2], cleanCard c)
      ∧ import_file (Deck.mk []) (export_file (Deck.mk [Card.mk "a" "1" 2])).1
        = some (Deck.mk [Card.mk "a" "1" 2]) :=
  ⟨by decide, export_import_roundtrip [Card.mk "a" "1" 2] (by decide)⟩
